import Mathlib

/-
  Verification of the core logic of the Material-Management-System repository.

  Modelling conventions (shallow embedding):
  * Python strings are lists of characters (`List Char`).
  * Python floats and `Decimal` values are exact rationals (`ℚ`); rounding
    performed by the code (`"%.2f"` formatting rounds half to even,
    `Decimal.quantize(..., ROUND_HALF_UP)` rounds half away from zero) is
    modelled explicitly on `ℚ`.
  * Values that may be absent (a missing dict key, a falsy argument) are
    `Option`s; code that raises is modelled with `Option`/result pairs.
  * File and widget state (the JSON caches, the item treeview) is passed
    explicitly as values.
-/

set_option maxHeartbeats 1000000
set_option maxRecDepth 4000

attribute [local semireducible] Rat.add Rat.sub Rat.mul Rat.inv Rat.ofScientific

/-- Character of a decimal digit value (0 ↦ '0', …, 9 ↦ '9'). -/
def digitToChar (d : ℕ) : Char := Char.ofNat (48 + d)

/-- Numeric value of a decimal digit character. -/
def charToDigit (c : Char) : ℕ := c.toNat - 48

/-- Decimal digits of a natural number, least significant first (fuelled
recursion so that the definition reduces in the kernel). -/
def natDigitsRevFuel : ℕ → ℕ → List ℕ
  | 0, _ => []
  | f + 1, n => if n = 0 then [] else n % 10 :: natDigitsRevFuel f (n / 10)

/-- Decimal digits of a natural number, least significant first. -/
def natDigitsRev (n : ℕ) : List ℕ := natDigitsRevFuel n n

/-- Decimal rendering of a natural number, as Python `str` produces it. -/
def renderNat (n : ℕ) : List Char :=
  if n = 0 then ['0'] else (natDigitsRev n).reverse.map digitToChar

/-- Value of a list of digit values, least significant first. -/
def ofDigitsRev (ds : List ℕ) : ℕ := ds.foldr (fun d a => d + 10 * a) 0

/-- Value of a string of decimal digit characters, most significant first. -/
def digitsToNat (cs : List Char) : ℕ := cs.foldl (fun a c => 10 * a + charToDigit c) 0

theorem digitToChar_toNat {d : ℕ} (h : d < 10) : (digitToChar d).toNat = 48 + d := by
  interval_cases d <;> decide

theorem digitToChar_facts {d : ℕ} (h : d < 10) :
    (digitToChar d).isDigit = true ∧ (digitToChar d).isWhitespace = false ∧
    digitToChar d ≠ '.' ∧ digitToChar d ≠ ',' ∧ digitToChar d ≠ '-' ∧ digitToChar d ≠ '+' := by
  interval_cases d <;> decide

theorem charToDigit_digitToChar {d : ℕ} (h : d < 10) : charToDigit (digitToChar d) = d := by
  simp [charToDigit, digitToChar_toNat h]

theorem natDigitsRevFuel_lt10 : ∀ f n, ∀ d ∈ natDigitsRevFuel f n, d < 10 := by
  intro f
  induction f with
  | zero => intro n d hd; simp [natDigitsRevFuel] at hd
  | succ f ih =>
    intro n d hd
    by_cases hn : n = 0
    · simp [natDigitsRevFuel, hn] at hd
    · simp only [natDigitsRevFuel, if_neg hn, List.mem_cons] at hd
      rcases hd with h | h
      · omega
      · exact ih _ _ h

theorem ofDigitsRev_natDigitsRevFuel : ∀ f n, n ≤ f → ofDigitsRev (natDigitsRevFuel f n) = n := by
  intro f
  induction f with
  | zero => intro n hn; interval_cases n; simp [natDigitsRevFuel, ofDigitsRev]
  | succ f ih =>
    intro n hn
    by_cases hn0 : n = 0
    · simp [natDigitsRevFuel, hn0, ofDigitsRev]
    · have hdiv : n / 10 ≤ f := by omega
      simp only [natDigitsRevFuel, if_neg hn0, ofDigitsRev, List.foldr_cons]
      have := ih (n / 10) hdiv
      simp only [ofDigitsRev] at this
      rw [this]
      omega

theorem ofDigitsRev_natDigitsRev (n : ℕ) : ofDigitsRev (natDigitsRev n) = n :=
  ofDigitsRev_natDigitsRevFuel n n le_rfl

theorem natDigitsRev_lt10 (n : ℕ) : ∀ d ∈ natDigitsRev n, d < 10 :=
  natDigitsRevFuel_lt10 n n

theorem foldl_digits_reverse_map (ds : List ℕ) (h : ∀ d ∈ ds, d < 10) :
    ∀ a : ℕ, (ds.reverse.map digitToChar).foldl (fun x c => 10 * x + charToDigit c) a =
      a * 10 ^ ds.length + ofDigitsRev ds := by
  induction ds with
  | nil => intro a; simp [ofDigitsRev]
  | cons d t ih =>
    intro a
    have hd : d < 10 := h d (List.mem_cons_self d t)
    have ht : ∀ x ∈ t, x < 10 := fun x hx => h x (List.mem_cons_of_mem d hx)
    simp only [List.reverse_cons, List.map_append, List.map_cons, List.map_nil,
      List.foldl_append, List.foldl_cons, List.foldl_nil]
    rw [ih ht a, charToDigit_digitToChar hd]
    simp only [ofDigitsRev, List.foldr_cons, List.length_cons]
    have : ofDigitsRev t = t.foldr (fun d a => d + 10 * a) 0 := rfl
    rw [← this]
    ring

theorem digitsToNat_renderNat (n : ℕ) : digitsToNat (renderNat n) = n := by
  by_cases hn : n = 0
  · subst hn; decide
  · simp only [renderNat, if_neg hn, digitsToNat]
    rw [foldl_digits_reverse_map _ (natDigitsRev_lt10 n) 0]
    simp [ofDigitsRev_natDigitsRev]

theorem natDigitsRev_ne_nil {n : ℕ} (hn : n ≠ 0) : natDigitsRev n ≠ [] := by
  intro h
  have hv := ofDigitsRev_natDigitsRev n
  rw [h] at hv
  simp [ofDigitsRev] at hv
  exact hn hv.symm

theorem renderNat_ne_nil (n : ℕ) : renderNat n ≠ [] := by
  by_cases hn : n = 0
  · subst hn; decide
  · simp only [renderNat, if_neg hn, ne_eq, List.map_eq_nil_iff, List.reverse_eq_nil_iff]
    exact natDigitsRev_ne_nil hn

theorem renderNat_all_digits (n : ℕ) :
    ∀ c ∈ renderNat n, (c.isDigit = true ∧ c.isWhitespace = false ∧
      c ≠ '.' ∧ c ≠ ',' ∧ c ≠ '-' ∧ c ≠ '+') := by
  intro c hc
  by_cases hn : n = 0
  · subst hn
    simp [renderNat] at hc
    subst hc; decide
  · simp only [renderNat, if_neg hn, List.mem_map, List.mem_reverse] at hc
    obtain ⟨d, hd, rfl⟩ := hc
    exact digitToChar_facts (natDigitsRev_lt10 n d hd)

theorem takeWhile_append_all {p : Char → Bool} {l : List Char} {a : Char} (r : List Char)
    (hl : ∀ c ∈ l, p c = true) (ha : p a = false) :
    (l ++ a :: r).takeWhile p = l := by
  induction l with
  | nil => simp [List.takeWhile_cons, ha]
  | cons c t ih =>
    have hc : p c = true := hl c (List.mem_cons_self c t)
    simp only [List.cons_append, List.takeWhile_cons, hc, if_pos]
    rw [ih (fun x hx => hl x (List.mem_cons_of_mem c hx))]

theorem takeWhile_all {p : Char → Bool} {l : List Char} (hl : ∀ c ∈ l, p c = true) :
    l.takeWhile p = l := by
  induction l with
  | nil => rfl
  | cons c t ih =>
    simp only [List.takeWhile_cons, hl c (List.mem_cons_self c t), if_pos]
    rw [ih (fun x hx => hl x (List.mem_cons_of_mem c hx))]

theorem dropWhile_append_all {p : Char → Bool} {l : List Char} {a : Char} (r : List Char)
    (hl : ∀ c ∈ l, p c = true) (ha : p a = false) :
    (l ++ a :: r).dropWhile p = a :: r := by
  induction l with
  | nil => simp [List.dropWhile_cons, ha]
  | cons c t ih =>
    have hc : p c = true := hl c (List.mem_cons_self c t)
    simp only [List.cons_append, List.dropWhile_cons, hc, if_pos]
    exact ih (fun x hx => hl x (List.mem_cons_of_mem c hx))

theorem dropWhile_all_neg {p : Char → Bool} {l : List Char} (h : ∀ c ∈ l, p c = false) :
    l.dropWhile p = l := by
  cases l with
  | nil => rfl
  | cons c t => simp [List.dropWhile_cons, h c (List.mem_cons_self c t)]

/-- Python `str.strip()`: remove whitespace at both ends. -/
def stripWs (cs : List Char) : List Char :=
  ((cs.dropWhile Char.isWhitespace).reverse.dropWhile Char.isWhitespace).reverse

theorem stripWs_eq_self {l : List Char} (h : ∀ c ∈ l, c.isWhitespace = false) :
    stripWs l = l := by
  unfold stripWs
  rw [dropWhile_all_neg h,
    dropWhile_all_neg (fun c hc => h c (List.mem_reverse.mp hc)), List.reverse_reverse]

/-- First whitespace-separated token of a string: `s.split()[0]`, `none` when
the string has no token (Python raises `IndexError` there). -/
def firstTok (s : List Char) : Option (List Char) :=
  let t := s.dropWhile Char.isWhitespace
  if t.isEmpty then none else some (t.takeWhile (fun c => !c.isWhitespace))

theorem firstTok_token_append {l : List Char} (r : List Char) (hne : l ≠ [])
    (h : ∀ c ∈ l, c.isWhitespace = false) : firstTok (l ++ ' ' :: r) = some l := by
  have hdrop : (l ++ ' ' :: r).dropWhile Char.isWhitespace = l ++ ' ' :: r := by
    obtain ⟨c, t, rfl⟩ := List.exists_cons_of_ne_nil hne
    simp [List.dropWhile_cons, h c (List.mem_cons_self c t)]
  have htake : (l ++ ' ' :: r).takeWhile (fun c => !c.isWhitespace) = l :=
    takeWhile_append_all r (fun x hx => by simp [h x hx]) (by decide)
  have hempty : (l ++ ' ' :: r).isEmpty = false := by
    obtain ⟨c, t, rfl⟩ := List.exists_cons_of_ne_nil hne
    rfl
  simp only [firstTok]
  rw [hdrop, htake, hempty]
  simp

theorem firstTok_token {l : List Char} (hne : l ≠ [])
    (h : ∀ c ∈ l, c.isWhitespace = false) : firstTok l = some l := by
  have hdrop : l.dropWhile Char.isWhitespace = l :=
    dropWhile_all_neg h
  have htake : l.takeWhile (fun c => !c.isWhitespace) = l :=
    takeWhile_all (fun x hx => by simp [h x hx])
  have hempty : l.isEmpty = false := by
    obtain ⟨c, t, rfl⟩ := List.exists_cons_of_ne_nil hne
    rfl
  simp only [firstTok]
  rw [hdrop, htake, hempty]
  simp

/-- Python `str(z)` for an integer. -/
def renderInt (z : ℤ) : List Char :=
  if z < 0 then '-' :: renderNat z.natAbs else renderNat z.natAbs

/-- Helper for `int(...)`: a signed all-digit string. -/
def pyIntCore (sign : ℤ) (ds : List Char) : Option ℤ :=
  if ds ≠ [] ∧ ds.all Char.isDigit then some (sign * (digitsToNat ds : ℤ)) else none

/-- Model of Python `int(s)` on strings: optional surrounding whitespace, an
optional sign, then decimal digits; `none` models the raised `ValueError`.
(Exotic accepted forms — underscores between digits, non-ASCII digits — are
outside the model.) -/
def pyIntParse (cs : List Char) : Option ℤ :=
  let t := stripWs cs
  if t.head? = some '-' then pyIntCore (-1) t.tail
  else if t.head? = some '+' then pyIntCore 1 t.tail
  else pyIntCore 1 t

theorem pyIntParse_renderNat (n : ℕ) : pyIntParse (renderNat n) = some (n : ℤ) := by
  have hfacts := renderNat_all_digits n
  have hstrip : stripWs (renderNat n) = renderNat n :=
    stripWs_eq_self (fun c hc => (hfacts c hc).2.1)
  obtain ⟨c, t, hct⟩ := List.exists_cons_of_ne_nil (renderNat_ne_nil n)
  have hcmem : c ∈ renderNat n := by rw [hct]; exact List.mem_cons_self c t
  have hcfacts := hfacts c hcmem
  simp only [pyIntParse]
  rw [hstrip, hct]
  simp only [List.head?_cons, List.tail_cons]
  rw [if_neg (by simp [hcfacts.2.2.2.2.1]), if_neg (by simp [hcfacts.2.2.2.2.2]), ← hct]
  simp only [pyIntCore]
  rw [if_pos ⟨renderNat_ne_nil n, List.all_eq_true.mpr (fun x hx => (hfacts x hx).1)⟩]
  rw [digitsToNat_renderNat]
  simp

theorem pyIntParse_renderInt_pos {z : ℤ} (h : 0 < z) : pyIntParse (renderInt z) = some z := by
  have hneg : ¬ z < 0 := by omega
  rw [renderInt, if_neg hneg, pyIntParse_renderNat]
  congr 1
  omega

/-- The low `k` decimal digits of a natural number, most significant first
(the `"%0kd"`-style fractional part of fixed-point formatting). -/
def padDigits (k m : ℕ) : List Char :=
  (List.range k).reverse.map (fun i => digitToChar (m / 10 ^ i % 10))

theorem padDigits_length (k m : ℕ) : (padDigits k m).length = k := by
  simp [padDigits]

theorem padDigits_all_digits (k m : ℕ) :
    ∀ c ∈ padDigits k m, (c.isDigit = true ∧ c.isWhitespace = false ∧
      c ≠ '.' ∧ c ≠ ',' ∧ c ≠ '-' ∧ c ≠ '+') := by
  intro c hc
  simp only [padDigits, List.mem_map, List.mem_reverse, List.mem_range] at hc
  obtain ⟨i, _, rfl⟩ := hc
  exact digitToChar_facts (Nat.mod_lt _ (by norm_num))

theorem foldl_padDigits (k m : ℕ) :
    ∀ a : ℕ, (padDigits k m).foldl (fun x c => 10 * x + charToDigit c) a =
      a * 10 ^ k + m % 10 ^ k := by
  induction k with
  | zero => intro a; simp [padDigits, Nat.mod_one]
  | succ k ih =>
    intro a
    have hr : (List.range (k + 1)).reverse = k :: (List.range k).reverse := by
      rw [List.range_succ]; simp
    simp only [padDigits, hr, List.map_cons, List.foldl_cons]
    rw [show ((List.range k).reverse.map fun i => digitToChar (m / 10 ^ i % 10)) =
      padDigits k m from rfl]
    rw [ih, charToDigit_digitToChar (Nat.mod_lt _ (by norm_num))]
    have h1 : m % 10 ^ (k + 1) = m % 10 ^ k + 10 ^ k * (m / 10 ^ k % 10) := by
      rw [pow_succ]
      exact Nat.mod_mul
    rw [h1, pow_succ]
    ring

theorem digitsToNat_padDigits (k m : ℕ) : digitsToNat (padDigits k m) = m % 10 ^ k := by
  simpa using foldl_padDigits k m 0

/-- Bridge between the executable `Rat.floor` and the `⌊⌋` of `Int.floor`. -/
theorem ratFloor_eq_intFloor (q : ℚ) : Rat.floor q = ⌊q⌋ := by
  rw [Rat.floor_def', Rat.floor_def]

/-- Round a rational to the nearest integer, ties to even: the rounding used
by Python float formatting (`"%.2f"`).  Written with the executable
`Rat.floor` so that concrete instances evaluate in the kernel. -/
def rhe (q : ℚ) : ℤ :=
  if q - Rat.floor q < 1 / 2 then Rat.floor q
  else if (1 : ℚ) / 2 < q - Rat.floor q then Rat.floor q + 1
  else if Rat.floor q % 2 = 0 then Rat.floor q else Rat.floor q + 1

theorem rhe_eq_floor (q : ℚ) : rhe q =
    (if q - ⌊q⌋ < 1 / 2 then ⌊q⌋
     else if (1 : ℚ) / 2 < q - ⌊q⌋ then ⌊q⌋ + 1
     else if ⌊q⌋ % 2 = 0 then ⌊q⌋ else ⌊q⌋ + 1) := by
  simp only [rhe, ratFloor_eq_intFloor]

theorem abs_rhe_sub (q : ℚ) : |(rhe q : ℚ) - q| ≤ 1 / 2 := by
  have h1 := Int.floor_le q
  have h2 := Int.lt_floor_add_one q
  rw [rhe_eq_floor]
  split_ifs with ha hb hc
  · rw [abs_le]; constructor <;> linarith
  · rw [abs_le]; constructor <;> push_cast <;> linarith
  · rw [abs_le]; constructor <;> linarith
  · rw [abs_le]; constructor <;> push_cast <;> linarith

theorem rhe_nonneg {q : ℚ} (h : 0 ≤ q) : 0 ≤ rhe q := by
  have hf : 0 ≤ ⌊q⌋ := Int.floor_nonneg.mpr h
  rw [rhe_eq_floor]
  split_ifs <;> omega

/-- Python fixed-point formatting `f"{x:.kf}"`: round half to even at `k`
decimal places, then print integer part, a dot, and `k` fractional digits. -/
def renderFix (k : ℕ) (x : ℚ) : List Char :=
  (if x < 0 then ['-'] else []) ++
    (renderNat ((rhe (|x| * 10 ^ k)).natAbs / 10 ^ k) ++
      '.' :: padDigits k ((rhe (|x| * 10 ^ k)).natAbs % 10 ^ k))

theorem renderFix_nonneg_eq {k : ℕ} {x : ℚ} (h : 0 ≤ x) :
    renderFix k x = renderNat ((rhe (x * 10 ^ k)).natAbs / 10 ^ k) ++
      '.' :: padDigits k ((rhe (x * 10 ^ k)).natAbs % 10 ^ k) := by
  rw [renderFix, if_neg (not_lt.mpr h), abs_of_nonneg h]
  simp

theorem renderFix_all_chars (k : ℕ) (x : ℚ) :
    ∀ c ∈ renderFix k x, c.isWhitespace = false := by
  intro c hc
  rw [renderFix] at hc
  rcases List.mem_append.mp hc with h1 | h2
  · by_cases hx : x < 0
    · rw [if_pos hx] at h1
      simp only [List.mem_singleton] at h1
      subst h1; decide
    · rw [if_neg hx] at h1
      simp at h1
  · rcases List.mem_append.mp h2 with h3 | h4
    · exact (renderNat_all_digits _ c h3).2.1
    · rcases List.mem_cons.mp h4 with h5 | h6
      · subst h5; decide
      · exact (padDigits_all_digits _ _ c h6).2.1

theorem renderFix_ne_nil (k : ℕ) (x : ℚ) : renderFix k x ≠ [] := by
  rw [renderFix]
  intro h
  rcases List.append_eq_nil.mp h with ⟨_, h2⟩
  rcases List.append_eq_nil.mp h2 with ⟨h3, _⟩
  exact renderNat_ne_nil _ h3

/-- Helper for `float(...)`: a signed decimal string, digits with an optional
single dot. -/
def floatCore (sign : ℚ) (u : List Char) : Option ℚ :=
  let ip := u.takeWhile (fun c => c != '.')
  let rest := u.dropWhile (fun c => c != '.')
  if rest = [] then
    if ip ≠ [] ∧ ip.all Char.isDigit then some (sign * (digitsToNat ip : ℚ)) else none
  else
    let fr := rest.tail
    if (ip ≠ [] ∨ fr ≠ []) ∧ ip.all Char.isDigit ∧ fr.all Char.isDigit then
      some (sign * ((digitsToNat ip : ℚ) + (digitsToNat fr : ℚ) / 10 ^ fr.length))
    else none

/-- Model of Python `float(s)` on strings: optional surrounding whitespace, an
optional sign, decimal digits with at most one dot; `none` models the raised
`ValueError`.  (Exponents, `inf`/`nan` and underscores are outside the model.) -/
def pyFloatParse (cs : List Char) : Option ℚ :=
  let t := stripWs cs
  if t.head? = some '-' then floatCore (-1) t.tail
  else if t.head? = some '+' then floatCore 1 t.tail
  else floatCore 1 t

theorem pyFloatParse_renderFix {k : ℕ} {x : ℚ} (h : 0 ≤ x) :
    pyFloatParse (renderFix k x) = some (((rhe (x * 10 ^ k) : ℤ) : ℚ) / 10 ^ k) := by
  have heq := renderFix_nonneg_eq (k := k) h
  set m := (rhe (x * 10 ^ k)).natAbs with hmdef
  have hip := renderNat_all_digits (m / 10 ^ k)
  have hfr := padDigits_all_digits k (m % 10 ^ k)
  have hstrip : stripWs (renderFix k x) = renderFix k x :=
    stripWs_eq_self (renderFix_all_chars k x)
  obtain ⟨c, t, hct⟩ := List.exists_cons_of_ne_nil (renderNat_ne_nil (m / 10 ^ k))
  have hcfacts := hip c (by rw [hct]; exact List.mem_cons_self c t)
  simp only [pyFloatParse]
  rw [hstrip, heq, hct]
  simp only [List.cons_append, List.head?_cons, List.tail_cons]
  rw [if_neg (by simp [hcfacts.2.2.2.2.1]), if_neg (by simp [hcfacts.2.2.2.2.2]),
    ← List.cons_append, ← hct]
  have htake : (renderNat (m / 10 ^ k) ++ '.' :: padDigits k (m % 10 ^ k)).takeWhile
      (fun c => c != '.') = renderNat (m / 10 ^ k) :=
    takeWhile_append_all _ (fun y hy => by simp [bne_iff_ne, (hip y hy).2.2.1]) (by decide)
  have hdrop : (renderNat (m / 10 ^ k) ++ '.' :: padDigits k (m % 10 ^ k)).dropWhile
      (fun c => c != '.') = '.' :: padDigits k (m % 10 ^ k) :=
    dropWhile_append_all _ (fun y hy => by simp [bne_iff_ne, (hip y hy).2.2.1]) (by decide)
  simp only [floatCore]
  rw [htake, hdrop]
  rw [if_neg (by simp), List.tail_cons]
  rw [if_pos ⟨Or.inl (renderNat_ne_nil _),
    List.all_eq_true.mpr (fun y hy => (hip y hy).1),
    List.all_eq_true.mpr (fun y hy => (hfr y hy).1)⟩]
  rw [digitsToNat_renderNat, digitsToNat_padDigits, padDigits_length,
    Nat.mod_mod_of_dvd _ (dvd_refl _)]
  congr 1
  have hmz : ((m : ℤ) : ℚ) = ((rhe (x * 10 ^ k) : ℤ) : ℚ) := by
    rw [hmdef, Int.natAbs_of_nonneg (rhe_nonneg (by positivity))]
  have hdm := Nat.div_add_mod m (10 ^ k)
  have hcast : (10 : ℚ) ^ k * ((m / 10 ^ k : ℕ) : ℚ) + ((m % 10 ^ k : ℕ) : ℚ) = (m : ℚ) := by
    exact_mod_cast congrArg (Nat.cast : ℕ → ℚ) hdm
  have h10 : (10 : ℚ) ^ k ≠ 0 := by positivity
  rw [one_mul]
  rw [← hmz]
  push_cast
  field_simp
  linarith

/-- Model of `utils.format_qty`: `f"{int(qty) if qty else 1} pcs"`; a falsy
quantity (absent or zero) becomes 1. -/
def format_qty (qty : Option ℤ) : List Char :=
  (match qty with
   | none => renderInt 1
   | some v => if v = 0 then renderInt 1 else renderInt v) ++ ' ' :: "pcs".toList

/-- Model of `utils.format_price`: `f"{float(price) if price else 0.0:.2f} {currency}"`. -/
def format_price (price : Option ℚ) (currency : List Char) : List Char :=
  renderFix 2 (price.getD 0) ++ ' ' :: currency

/-- Model of `utils.format_weight`: `f"{float(weight) if weight else 0.0:.3f} kg"`. -/
def format_weight (weight : Option ℚ) : List Char :=
  renderFix 3 (weight.getD 0) ++ ' ' :: "kg".toList

/-- Model of `utils.parse_qty_from_display`: `int(s.split()[0])`, defaulting
to 1 on `ValueError`/`IndexError`. -/
def parse_qty_from_display (s : List Char) : ℤ :=
  ((firstTok s).bind pyIntParse).getD 1

/-- Model of `utils.parse_price_from_display`: `float(s.split()[0])`,
defaulting to 0.0 on `ValueError`/`IndexError`. -/
def parse_price_from_display (s : List Char) : ℚ :=
  ((firstTok s).bind pyFloatParse).getD 0

/-- Model of `utils.parse_weight_from_display`: `float(s.split()[0])`,
defaulting to 0.0 on `ValueError`/`IndexError`. -/
def parse_weight_from_display (s : List Char) : ℚ :=
  ((firstTok s).bind pyFloatParse).getD 0

theorem parse_format_qty {n : ℤ} (h : 0 < n) :
    parse_qty_from_display (format_qty (some n)) = n := by
  have hne : ¬ n = 0 := by omega
  have hrn : renderInt n = renderNat n.natAbs := by
    rw [renderInt, if_neg (by omega : ¬ n < 0)]
  simp only [format_qty, if_neg hne, hrn, parse_qty_from_display]
  rw [firstTok_token_append _ (renderNat_ne_nil _)
    (fun c hc => (renderNat_all_digits _ c hc).2.1)]
  show (pyIntParse (renderNat n.natAbs)).getD 1 = n
  rw [pyIntParse_renderNat]
  simp
  omega

theorem parse_format_price {x : ℚ} (cur : List Char) (h : 0 ≤ x) :
    parse_price_from_display (format_price (some x) cur) = ((rhe (x * 100) : ℤ) : ℚ) / 100 := by
  simp only [format_price, Option.getD_some, parse_price_from_display]
  rw [firstTok_token_append _ (renderFix_ne_nil 2 x) (renderFix_all_chars 2 x)]
  show (pyFloatParse (renderFix 2 x)).getD 0 = _
  rw [pyFloatParse_renderFix h]
  norm_num

theorem parse_format_weight {x : ℚ} (h : 0 ≤ x) :
    parse_weight_from_display (format_weight (some x)) = ((rhe (x * 1000) : ℤ) : ℚ) / 1000 := by
  simp only [format_weight, Option.getD_some, parse_weight_from_display]
  rw [firstTok_token_append _ (renderFix_ne_nil 3 x) (renderFix_all_chars 3 x)]
  show (pyFloatParse (renderFix 3 x)).getD 0 = _
  rw [pyFloatParse_renderFix h]
  norm_num

theorem rhe_scaled_bound (x s : ℚ) (hs : 0 < s) : |(rhe (x * s) : ℚ) / s - x| ≤ 1 / (2 * s) := by
  have hb := abs_rhe_sub (x * s)
  have heq : (rhe (x * s) : ℚ) / s - x = ((rhe (x * s) : ℚ) - x * s) / s := by
    field_simp
    ring
  rw [heq, abs_div, abs_of_pos hs]
  calc |(rhe (x * s) : ℚ) - x * s| / s ≤ (1 / 2) / s :=
        (div_le_div_iff_of_pos_right hs).mpr hb
    _ = 1 / (2 * s) := by ring

/-- Test that `pat` is an initial segment of `s`. -/
def leadsTo : List Char → List Char → Bool
  | [], _ => true
  | _ :: _, [] => false
  | a :: as, b :: bs => a == b && leadsTo as bs

/-- Model of Python `pat in s` (substring containment test). -/
def containsSub (pat : List Char) : List Char → Bool
  | [] => pat.isEmpty
  | c :: rest => leadsTo pat (c :: rest) || containsSub pat rest

/-- Spec-level statement: `pat` occurs as a contiguous substring of `s`. -/
def SubstrOf (pat s : List Char) : Prop := ∃ l r, s = l ++ pat ++ r

theorem leadsTo_iff (pat : List Char) : ∀ s, leadsTo pat s = true ↔ ∃ r, s = pat ++ r := by
  induction pat with
  | nil =>
    intro s
    simp only [leadsTo, List.nil_append, true_iff]
    exact ⟨s, rfl⟩
  | cons a as ih =>
    intro s
    cases s with
    | nil =>
      simp only [leadsTo, List.cons_append]
      constructor
      · intro h; cases h
      · rintro ⟨r, hr⟩; cases hr
    | cons b bs =>
      simp only [leadsTo, Bool.and_eq_true, beq_iff_eq, List.cons_append]
      constructor
      · rintro ⟨rfl, h⟩
        obtain ⟨r, rfl⟩ := (ih bs).mp h
        exact ⟨r, rfl⟩
      · rintro ⟨r, hr⟩
        injection hr with h1 h2
        exact ⟨h1.symm, (ih bs).mpr ⟨r, h2⟩⟩

theorem containsSub_iff (pat : List Char) : ∀ s, containsSub pat s = true ↔ SubstrOf pat s := by
  intro s
  induction s with
  | nil =>
    simp only [containsSub, SubstrOf, List.isEmpty_iff]
    constructor
    · rintro rfl; exact ⟨[], [], rfl⟩
    · rintro ⟨l, r, h⟩
      have h1 := (List.append_eq_nil.mp h.symm).1
      exact (List.append_eq_nil.mp h1).2
  | cons c rest ih =>
    simp only [containsSub, Bool.or_eq_true, leadsTo_iff, ih]
    constructor
    · rintro (⟨r, hr⟩ | hsub)
      · exact ⟨[], r, by simpa using hr⟩
      · obtain ⟨l, r, rfl⟩ := hsub
        exact ⟨c :: l, r, rfl⟩
    · rintro ⟨l, r, hlr⟩
      cases l with
      | nil =>
        left
        exact ⟨r, by simpa using hlr⟩
      | cons x xs =>
        right
        injection hlr with h1 h2
        exact ⟨xs, r, h2⟩

/-- Fuelled scan for `str.replace` with a nonempty pattern. -/
def pyReplaceFuel : ℕ → List Char → List Char → List Char → List Char
  | 0, s, _, _ => s
  | f + 1, s, pat, rep =>
    match s with
    | [] => []
    | c :: rest =>
      if leadsTo pat (c :: rest) then rep ++ pyReplaceFuel f ((c :: rest).drop pat.length) pat rep
      else c :: pyReplaceFuel f rest pat rep

/-- Model of Python `s.replace(pat, rep)`: replaces non-overlapping
occurrences left to right; an empty pattern inserts `rep` at every
position, as Python does. -/
def pyReplace (s pat rep : List Char) : List Char :=
  if pat.isEmpty then rep ++ s.foldr (fun c acc => c :: (rep ++ acc)) []
  else pyReplaceFuel s.length s pat rep

theorem pat_length_pos {pat : List Char} (h : pat ≠ []) : 1 ≤ pat.length := by
  cases pat with
  | nil => exact absurd rfl h
  | cons a as => simp

theorem pyReplaceFuel_congr : ∀ f₁ f₂ s pat rep, pat ≠ [] → s.length ≤ f₁ → s.length ≤ f₂ →
    pyReplaceFuel f₁ s pat rep = pyReplaceFuel f₂ s pat rep := by
  intro f₁
  induction f₁ with
  | zero =>
    intro f₂ s pat rep _ h1 _
    have hs : s = [] := List.eq_nil_of_length_eq_zero (by omega)
    subst hs
    cases f₂ <;> rfl
  | succ f ih =>
    intro f₂ s pat rep hp h1 h2
    cases s with
    | nil => cases f₂ <;> rfl
    | cons c rest =>
      cases f₂ with
      | zero => simp at h2
      | succ g =>
        simp only [pyReplaceFuel]
        have hplen := pat_length_pos hp
        by_cases hl : leadsTo pat (c :: rest) = true
        · rw [if_pos hl, if_pos hl]
          congr 1
          apply ih
          · exact hp
          · simp only [List.length_drop, List.length_cons]
            simp only [List.length_cons] at h1
            omega
          · simp only [List.length_drop, List.length_cons]
            simp only [List.length_cons] at h2
            omega
        · rw [if_neg hl, if_neg hl]
          congr 1
          apply ih
          · exact hp
          · simp only [List.length_cons] at h1; omega
          · simp only [List.length_cons] at h2; omega

theorem pyReplace_nil {pat : List Char} (rep : List Char) (h : pat ≠ []) :
    pyReplace [] pat rep = [] := by
  rw [pyReplace, if_neg (by simpa [List.isEmpty_iff] using h)]
  rfl

theorem pyReplace_cons {pat : List Char} (c : Char) (rest rep : List Char) (h : pat ≠ []) :
    pyReplace (c :: rest) pat rep =
      if leadsTo pat (c :: rest) then rep ++ pyReplace ((c :: rest).drop pat.length) pat rep
      else c :: pyReplace rest pat rep := by
  have hie : ¬ pat.isEmpty = true := by simpa [List.isEmpty_iff] using h
  rw [pyReplace, if_neg hie]
  simp only [List.length_cons, pyReplaceFuel]
  have hplen := pat_length_pos h
  by_cases hl : leadsTo pat (c :: rest) = true
  · rw [if_pos hl, if_pos hl]
    congr 1
    rw [pyReplace, if_neg hie]
    apply pyReplaceFuel_congr
    · exact h
    · simp only [List.length_drop, List.length_cons]; omega
    · exact le_rfl
  · rw [if_neg hl, if_neg hl]
    congr 1
    rw [pyReplace, if_neg hie]

theorem pyReplace_no_occur {s pat rep : List Char} (hp : pat ≠ []) (h : ¬ SubstrOf pat s) :
    pyReplace s pat rep = s := by
  induction s with
  | nil => exact pyReplace_nil rep hp
  | cons c rest ih =>
    rw [pyReplace_cons c rest rep hp]
    have hnl : ¬ leadsTo pat (c :: rest) = true := by
      intro hL
      obtain ⟨r, hr⟩ := (leadsTo_iff pat _).mp hL
      exact h ⟨[], r, by simpa using hr⟩
    rw [if_neg hnl]
    congr 1
    apply ih
    intro hsub
    obtain ⟨l, r, rfl⟩ := hsub
    exact h ⟨c :: l, r, rfl⟩

/-- Concatenation of the texts of a paragraph's runs (`paragraph.text`). -/
def catList (l : List (List Char)) : List Char := l.foldr (· ++ ·) []

theorem catList_map_nil {α : Type} (l : List α) :
    catList (l.map fun _ => ([] : List Char)) = [] := by
  induction l with
  | nil => rfl
  | cons a t ih => simpa [catList] using ih

/-- Model of `utils.replace_placeholder_in_paragraph`: when the placeholder
occurs in the paragraph's concatenated text, concatenate all runs, perform
the replacement, put the result in the first run and clear the rest;
otherwise leave the paragraph untouched. -/
def replace_placeholder_in_paragraph (runs : List (List Char)) (tok val : List Char) :
    List (List Char) :=
  if containsSub tok (catList runs) then
    match runs with
    | [] => []
    | _ :: rest => pyReplace (catList runs) tok val :: rest.map (fun _ => ([] : List Char))
  else runs

/-- Python `str.upper()` (ASCII view). -/
def strUpper (s : List Char) : List Char := s.map Char.toUpper

/-- Model of `CurrencyHandler.static_rates`: SAR ↦ 1.0, USD ↦ 0.27. -/
def static_rates (c : List Char) : Option ℚ :=
  if c = "SAR".toList then some 1
  else if c = "USD".toList then some (27 / 100)
  else none

/-- Model of `Decimal(x).quantize(Decimal("0.01"), rounding=ROUND_HALF_UP)`:
round to 2 decimal places, ties away from zero. -/
def quantizeHalfUp2 (q : ℚ) : ℚ :=
  (((if 0 ≤ q then Rat.floor (q * 100 + 1 / 2)
     else -Rat.floor (-(q * 100) + 1 / 2)) : ℤ) : ℚ) / 100

/-- Model of `CurrencyHandler.convert(amount, to_currency, live_rate)`.
`selfCurrency` is the handler's configured currency, `liveFetched` stands for
the value the network lookup would return (`none` when it fails); a `none`
result models the `ValueError` raised for an unsupported currency. -/
def CurrencyHandler.convert (selfCurrency : List Char) (amount : ℚ)
    (toCurrency : Option (List Char)) (liveRate : Bool) (liveFetched : Option ℚ) : Option ℚ :=
  let toCur := match toCurrency with
    | some c => if c.isEmpty then selfCurrency else strUpper c
    | none => selfCurrency
  match static_rates toCur with
  | none => none
  | some r0 =>
    let rate := if liveRate = true ∧ toCur ≠ "SAR".toList then
        (match liveFetched with
         | some lr => if lr ≠ 0 then lr else r0
         | none => r0)
      else r0
    some (quantizeHalfUp2 (amount * rate))

/-- Digit grouping of `f"{v:,.2f}"`, applied to the reversed integer-part
digit string: insert a comma after every three digits. -/
def group3Rev : List Char → List Char
  | a :: b :: c :: d :: rest => a :: b :: c :: ',' :: group3Rev (d :: rest)
  | l => l

/-- The number part of `f"{v:,.2f}"`: sign, comma-grouped integer part,
dot, two fractional digits, rounding half to even. -/
def renderThousands2 (x : ℚ) : List Char :=
  (if x < 0 then ['-'] else []) ++
    ((group3Rev (renderNat ((rhe (|x| * 100)).natAbs / 100)).reverse).reverse ++
      '.' :: padDigits 2 ((rhe (|x| * 100)).natAbs % 100))

/-- Model of `CurrencyHandler.format(amount, currency, live_rate)`:
converts first, then renders the converted value. -/
def CurrencyHandler.format (selfCurrency : List Char) (amount : ℚ)
    (currency : Option (List Char)) (liveRate : Bool) (liveFetched : Option ℚ) :
    Option (List Char) :=
  let c := match currency with
    | some x => if x.isEmpty then selfCurrency else strUpper x
    | none => selfCurrency
  (CurrencyHandler.convert selfCurrency amount (some c) liveRate liveFetched).map
    (fun v => c ++ ' ' :: renderThousands2 v)

/-- Model of `utils.format_currency`: `f"{currency} {value:,.2f}"`, falsy
value treated as 0; the amount itself is rendered, with no conversion. -/
def format_currency (value : Option ℚ) (currency : List Char) : List Char :=
  currency ++ ' ' :: renderThousands2 (value.getD 0)

/-- Python `str.lower()` for the case-insensitive search. -/
def strLower (s : List Char) : List Char := s.map Char.toLower

/-- A catalog product.  Optional fields model the `dict.get` defaults the
code applies (`Supplier` ↦ `''`, `Unit Price` ↦ 0, `Qty` ↦ 1, `Weight` ↦ 0). -/
structure Product where
  partNumber : List Char
  description : List Char
  supplier : Option (List Char)
  unitPrice : Option ℚ
  qty : Option ℤ
  weight : Option ℚ
deriving DecidableEq

/-- Model of `BaseGenerator.on_keyrelease`: an empty (lowercased) query
restores the full product list; otherwise keep exactly the products whose
lowercased part number or description contains the lowercased query. -/
def on_keyrelease (products : List Product) (query : List Char) : List Product :=
  let typed := strLower query
  if typed.isEmpty then products
  else products.filter (fun p =>
    containsSub typed (strLower p.partNumber) || containsSub typed (strLower p.description))

/-- Model of `BaseGenerator.format_item_for_tree` (the subclass variants are
textually identical): the displayed treeview row for a product. -/
def format_item_for_tree (currencyUnit : List Char) (p : Product) : List (List Char) :=
  [p.partNumber, p.description, format_qty p.qty, p.supplier.getD [],
   format_price p.unitPrice currencyUnit, format_weight p.weight]

/-- The state of a generator window touched by the ledger operations: the
catalog, the treeview rows, and the backing `selected_items` list. -/
structure GenState where
  products : List Product
  ledger : List (List (List Char))
  selectedItems : List Product
deriving DecidableEq

/-- Model of `BaseGenerator.add_selected_items` on the checked products: each
checked product is formatted and appended to the treeview and to
`selected_items`; the catalog is only read. -/
def add_selected_items (currencyUnit : List Char) (st : GenState) (checked : List Product) :
    GenState :=
  checked.foldl (fun s p =>
    { s with ledger := s.ledger ++ [format_item_for_tree currencyUnit p],
             selectedItems := s.selectedItems ++ [p] }) st

/-- Keep the rows of `rows` whose position (counting from `k`) is not in
`sel`: the specification-level form of deleting the selected rows. -/
def keepAux {α : Type} (rows : List α) (sel : List ℕ) (k : ℕ) : List α :=
  match rows with
  | [] => []
  | a :: t => if k ∈ sel then keepAux t sel (k + 1) else a :: keepAux t sel (k + 1)

/-- Rows surviving the deletion of the positions in `sel`. -/
def keepIdx {α : Type} (rows : List α) (sel : List ℕ) : List α := keepAux rows sel 0

/-- Model of `BaseGenerator.remove_selected_item`: `rows` are the treeview
rows, `sel` the positions of the selected rows.  Mirrors the code: an empty
ledger warns and does nothing; a single row is removed unconditionally; with
two or more rows an empty selection is rejected with a warning; otherwise the
selected positions are deleted highest first (each pop bounds-checked).  The
flag reports whether anything was removed. -/
def remove_selected_item {α : Type} (rows : List α) (sel : List ℕ) : List α × Bool :=
  if rows.length = 0 then (rows, false)
  else if rows.length = 1 then ([], true)
  else if sel.isEmpty then (rows, false)
  else ((List.insertionSort (· ≥ ·) sel).foldl List.eraseIdx rows, true)

/-- Model of the `on_enter` handler of `BaseGenerator.on_double_click`: given
the column name, the cell's current value and the typed text, return the
cell's final value and whether the edit was accepted.  Only the Qty, Unit
Price and Weight columns are editable; a quantity edit keeps the digit
characters of the stripped input and requires them to form a positive
number, re-formatting through `format_qty`; price and weight edits store the
stripped input verbatim. -/
def on_double_click (column : List Char) (current newInput : List Char) :
    (List Char) × Bool :=
  if column = "Qty".toList ∨ column = "Unit Price".toList ∨ column = "Weight".toList then
    let nv := stripWs newInput
    if column = "Qty".toList then
      let ds := nv.filter Char.isDigit
      if ds.isEmpty then (current, false)
      else if digitsToNat ds = 0 then (current, false)
      else (format_qty (some (digitsToNat ds : ℤ)), true)
    else (nv, true)
  else (current, false)

/-- A record of the client-info cache.  The three key fields are `Option`s
because a pre-existing JSON entry may lack them (`dict.get` then yields
`None`); the remaining eight template fields are collected in `rest`. -/
structure CacheRecord where
  customer : Option (List Char)
  projectName : Option (List Char)
  deliveryNo : Option (List Char)
  rest : List (List Char)
deriving DecidableEq

/-- The JSON value stored in `client_info_cache.json`: either an array of
records or something that is not a list (treated as empty by the code). -/
inductive CacheVal where
  | jlist : List CacheRecord → CacheVal
  | other : CacheVal
deriving DecidableEq

/-- The list view the code takes of the cache value (`data` after the
`isinstance(data, list)` check). -/
def CacheVal.asList : CacheVal → List CacheRecord
  | .jlist l => l
  | .other => []

/-- The duplicate test of `update_client_info_cache`: match on
(customer, project, delivery number). -/
def matchesKey (customer project deliveryNo : List Char) (r : CacheRecord) : Bool :=
  r.customer == some customer && r.projectName == some project &&
    r.deliveryNo == some deliveryNo

/-- The record `update_client_info_cache` appends. -/
def mkCacheRecord (deliveryNo customer project address phone incharge contactNumber
    poRef quotation subject deliveryDate : List Char) : CacheRecord :=
  ⟨some customer, some project, some deliveryNo,
    [address, phone, incharge, contactNumber, poRef, quotation, subject, deliveryDate]⟩

/-- Model of `BaseGenerator.update_client_info_cache`: load the JSON value
(anything that is not a list counts as empty), append the record unless one
with the same (customer, project, delivery number) key exists, and only then
rewrite the file. -/
def update_client_info_cache (st : CacheVal) (deliveryNo customer project address phone
    incharge contactNumber poRef quotation subject deliveryDate : List Char) : CacheVal :=
  let data := st.asList
  if data.any (matchesKey customer project deliveryNo) then st
  else .jlist (data ++ [mkCacheRecord deliveryNo customer project address phone incharge
    contactNumber poRef quotation subject deliveryDate])

/-- Number of stored records with the given composite key. -/
def countKey (st : CacheVal) (customer project deliveryNo : List Char) : ℕ :=
  st.asList.countP (matchesKey customer project deliveryNo)

/-- Python `f"{z:03d}"`: zero-pad the decimal rendering to width 3, the sign
counting toward the width. -/
def pad03 (z : ℤ) : List Char :=
  if z < 0 then
    '-' :: (List.replicate (2 - (renderNat z.natAbs).length) '0' ++ renderNat z.natAbs)
  else List.replicate (3 - (renderNat z.natAbs).length) '0' ++ renderNat z.natAbs

/-- Model of `DeliveryNoteGenerator.generate_delivery_note_number`: `notes`
is the loaded log, each entry being its `"Delivery Note No."` value (`none`
when the key is missing, `.get` then yields `""`); `mm`/`yy` stand for
`datetime.now().strftime("%m-%y")`.  An empty log starts at sequence 1;
otherwise the sequence is `int(last[2:5]) + 1`, falling back to
`len(records) + 1` when that slice does not parse. -/
def generate_delivery_note_number (notes : List (Option (List Char))) (mm yy : List Char) :
    List Char :=
  let seq : ℤ :=
    match notes.getLast? with
    | none => 1
    | some dn =>
      match pyIntParse (((dn.getD []).drop 2).take 3) with
      | some k => k + 1
      | none => (notes.length : ℤ) + 1
  "DN".toList ++ pad03 seq ++ '-' :: (mm ++ '-' :: yy)

theorem keepAux_high {α : Type} :
    ∀ (rows : List α) (sel : List ℕ) (k : ℕ), (∀ j ∈ sel, j < k) → keepAux rows sel k = rows := by
  intro rows
  induction rows with
  | nil => intro sel k _; rfl
  | cons a t ih =>
    intro sel k h
    have hk : k ∉ sel := fun hmem => lt_irrefl k (h k hmem)
    simp only [keepAux, if_neg hk]
    rw [ih sel (k + 1) (fun j hj => Nat.lt_succ_of_lt (h j hj))]

theorem keepAux_eraseIdx {α : Type} :
    ∀ (rows : List α) (i k : ℕ) (rest : List ℕ), (∀ j ∈ rest, j < i + k) →
      keepAux (rows.eraseIdx i) rest k = keepAux rows ((i + k) :: rest) k := by
  intro rows
  induction rows with
  | nil => intro i k rest _; rfl
  | cons a t ih =>
    intro i k rest h
    cases i with
    | zero =>
      show keepAux t rest k = keepAux (a :: t) ((0 + k) :: rest) k
      rw [keepAux_high t rest k (fun j hj => by simpa using h j hj)]
      have hzk : 0 + k = k := by omega
      rw [hzk]
      simp only [keepAux, if_pos (List.mem_cons_self k rest)]
      rw [keepAux_high t (k :: rest) (k + 1) ?_]
      intro j hj
      rcases List.mem_cons.mp hj with rfl | hj2
      · omega
      · have := h j hj2; omega
    | succ i' =>
      show keepAux (a :: t.eraseIdx i') rest k = keepAux (a :: t) ((i' + 1 + k) :: rest) k
      have harith : i' + (k + 1) = i' + 1 + k := by omega
      have hrest : ∀ j ∈ rest, j < i' + (k + 1) := by
        intro j hj; have := h j hj; omega
      have hih := ih i' (k + 1) rest hrest
      rw [harith] at hih
      by_cases hk : k ∈ rest
      · have hk2 : k ∈ (i' + 1 + k) :: rest := List.mem_cons_of_mem _ hk
        simp only [keepAux, if_pos hk, if_pos hk2]
        exact hih
      · have hk2 : k ∉ (i' + 1 + k) :: rest := by
          intro hmem
          rcases List.mem_cons.mp hmem with he | hm
          · omega
          · exact hk hm
        simp only [keepAux, if_neg hk, if_neg hk2]
        rw [hih]

theorem foldl_eraseIdx_keepAux {α : Type} :
    ∀ (ds : List ℕ) (rows : List α), List.Pairwise (· > ·) ds →
      ds.foldl List.eraseIdx rows = keepAux rows ds 0 := by
  intro ds
  induction ds with
  | nil =>
    intro rows _
    simp only [List.foldl_nil]
    rw [keepAux_high rows [] 0 (fun j hj => absurd hj (List.not_mem_nil j))]
  | cons i rest ih =>
    intro rows hp
    have hhead := (List.pairwise_cons.mp hp).1
    have htail := (List.pairwise_cons.mp hp).2
    simp only [List.foldl_cons]
    rw [ih (rows.eraseIdx i) htail]
    have hj : ∀ j ∈ rest, j < i + 0 := by
      intro j hjm
      have := hhead j hjm
      omega
    rw [keepAux_eraseIdx rows i 0 rest hj]
    norm_num

theorem keepAux_congr {α : Type} :
    ∀ (rows : List α) (sel₁ sel₂ : List ℕ) (k : ℕ), (∀ j, j ∈ sel₁ ↔ j ∈ sel₂) →
      keepAux rows sel₁ k = keepAux rows sel₂ k := by
  intro rows
  induction rows with
  | nil => intro _ _ _ _; rfl
  | cons a t ih =>
    intro sel₁ sel₂ k h
    simp only [keepAux]
    by_cases hk : k ∈ sel₁
    · rw [if_pos hk, if_pos ((h k).mp hk), ih sel₁ sel₂ (k + 1) h]
    · rw [if_neg hk, if_neg (fun hm => hk ((h k).mpr hm)), ih sel₁ sel₂ (k + 1) h]

theorem keepAux_sublist {α : Type} :
    ∀ (rows : List α) (sel : List ℕ) (k : ℕ), (keepAux rows sel k).Sublist rows := by
  intro rows
  induction rows with
  | nil => intro _ _; exact List.Sublist.refl []
  | cons a t ih =>
    intro sel k
    simp only [keepAux]
    by_cases hk : k ∈ sel
    · rw [if_pos hk]; exact (ih sel (k + 1)).cons a
    · rw [if_neg hk]; exact (ih sel (k + 1)).cons₂ a

instance : IsTotal ℕ (· ≥ ·) := ⟨fun a b => (le_total b a).imp id id⟩

instance : IsTrans ℕ (· ≥ ·) := ⟨fun _ _ _ h₁ h₂ => le_trans h₂ h₁⟩

theorem insertionSort_pairwise_gt {sel : List ℕ} (h : sel.Nodup) :
    List.Pairwise (· > ·) (List.insertionSort (· ≥ ·) sel) := by
  have hp : List.Pairwise (· ≥ ·) (List.insertionSort (· ≥ ·) sel) :=
    List.sorted_insertionSort _ _
  have hn : (List.insertionSort (· ≥ ·) sel).Nodup :=
    ((List.perm_insertionSort (· ≥ ·) sel).nodup_iff).mpr h
  exact (hp.and hn).imp (fun hab => lt_of_le_of_ne hab.1 (Ne.symm hab.2))

theorem filter_cons_congr {p : Char → Bool} (x : Char) {l1 l2 : List Char}
    (h : l1.filter p = l2.filter p) : (x :: l1).filter p = (x :: l2).filter p := by
  simp only [List.filter_cons, h]

theorem filter_comma_group3Rev_aux :
    ∀ (n : ℕ) (l : List Char), l.length ≤ n →
      (group3Rev l).filter (fun c => c != ',') = l.filter (fun c => c != ',') := by
  intro n
  induction n with
  | zero =>
    intro l h
    have : l = [] := List.eq_nil_of_length_eq_zero (by omega)
    subst this
    rfl
  | succ n ih =>
    intro l h
    cases l with
    | nil => rfl
    | cons a l1 =>
      cases l1 with
      | nil => rfl
      | cons b l2 =>
        cases l2 with
        | nil => rfl
        | cons c l3 =>
          cases l3 with
          | nil => rfl
          | cons d rest =>
            have key : (',' :: group3Rev (d :: rest)).filter (fun c => c != ',') =
                (d :: rest).filter (fun c => c != ',') := by
              rw [List.filter_cons]
              have hcm : ((',' : Char) != ',') = false := by decide
              rw [hcm]
              simp only [Bool.false_eq_true, if_false]
              exact ih (d :: rest) (by simp only [List.length_cons] at h ⊢; omega)
            exact filter_cons_congr a (filter_cons_congr b (filter_cons_congr c key))

theorem filter_comma_group3Rev (l : List Char) :
    (group3Rev l).filter (fun c => c != ',') = l.filter (fun c => c != ',') :=
  filter_comma_group3Rev_aux l.length l le_rfl

theorem renderThousands2_filter (x : ℚ) :
    (renderThousands2 x).filter (fun c => c != ',') = renderFix 2 x := by
  have hip := renderNat_all_digits ((rhe (|x| * 100)).natAbs / 100)
  have hfr := padDigits_all_digits 2 ((rhe (|x| * 100)).natAbs % 100)
  have h100 : ((10 : ℚ) ^ 2) = 100 := by norm_num
  rw [renderThousands2, renderFix, List.filter_append, List.filter_append, h100]
  congr 1
  · split_ifs <;> rfl
  · congr 1
    · rw [List.filter_reverse, filter_comma_group3Rev, List.filter_reverse,
        List.reverse_reverse]
      apply List.filter_eq_self.mpr
      intro a ha
      simpa using (hip a ha).2.2.2.1
    · rw [List.filter_cons]
      have hd : (('.' : Char) != ',') = true := by decide
      rw [hd]
      simp only [if_pos]
      congr 1
      apply List.filter_eq_self.mpr
      intro a ha
      simpa using (hfr a ha).2.2.2.1

/-- C1: `generate_delivery_note_number` on an empty log produces sequence 1
(`"DN001-MM-YY"`); on a non-empty log whose last record's document number has
parseable digits at positions 2–4 (e.g. `"DN003-05-25"`) it produces the
prefix `DN`, that sequence plus one zero-padded to three digits, then the
current month and two-digit year; when the slice does not parse, the
sequence falls back to the number of records plus one. -/
theorem c1_next_document_number (notes : List (Option (List Char))) (mm yy : List Char) :
    (notes = [] →
      generate_delivery_note_number notes mm yy = "DN001-".toList ++ mm ++ '-' :: yy) ∧
    (∀ dn k, notes.getLast? = some dn →
      pyIntParse (((dn.getD []).drop 2).take 3) = some k →
      generate_delivery_note_number notes mm yy =
        "DN".toList ++ pad03 (k + 1) ++ '-' :: (mm ++ '-' :: yy)) ∧
    (∀ dn, notes.getLast? = some dn →
      pyIntParse (((dn.getD []).drop 2).take 3) = none →
      generate_delivery_note_number notes mm yy =
        "DN".toList ++ pad03 ((notes.length : ℤ) + 1) ++ '-' :: (mm ++ '-' :: yy)) := by
  refine ⟨?_, ?_, ?_⟩
  · rintro rfl
    rfl
  · intro dn k h1 h2
    simp only [generate_delivery_note_number, h1, h2]
  · intro dn h1 h2
    simp only [generate_delivery_note_number, h1, h2]

/-- C1 witness: with last record `"DN003-05-25"` and current month/year
07/25 the next number is `"DN004-07-25"`. -/
theorem c1_next_document_number_witness :
    generate_delivery_note_number [some ("DN003-05-25".toList)] ("07".toList) ("25".toList) =
      "DN004-07-25".toList := by
  have h := (c1_next_document_number [some ("DN003-05-25".toList)] ("07".toList)
    ("25".toList)).2.1 (some ("DN003-05-25".toList)) 3 rfl (by decide)
  rw [h]
  decide

/-- C2 counterexample: the claim quantifies over every initial cache state,
but an initial array that already holds two records with the key leaves two
records after the two calls, not exactly one. -/
theorem c2_append_if_new_counterexample :
    countKey (update_client_info_cache (update_client_info_cache
        (CacheVal.jlist [mkCacheRecord [] [] [] [] [] [] [] [] [] [] [],
          mkCacheRecord [] [] [] [] [] [] [] [] [] [] []])
        [] [] [] [] [] [] [] [] [] [] [])
      [] [] [] [] [] [] [] [] [] [] []) [] [] [] = 2 ∧ (2 : ℕ) ≠ 1 := by
  exact ⟨by decide, by decide⟩

theorem matchesKey_mkCacheRecord (dn c p a ph inc cn po q su dd : List Char) :
    matchesKey c p dn (mkCacheRecord dn c p a ph inc cn po q su dd) = true := by
  simp [matchesKey, mkCacheRecord]

theorem asList_jlist (l : List CacheRecord) : (CacheVal.jlist l).asList = l := rfl

/-- C2 (amended): calling `update_client_info_cache` twice with records
sharing (customer, project, document number) leaves `max(initial count, 1)`
records with that key — exactly one whenever the initial cache held at most
one — and the second call leaves the stored value unchanged. -/
theorem c2_append_if_new (st : CacheVal) (dn c p a ph inc cn po q su dd
    a2 ph2 inc2 cn2 po2 q2 su2 dd2 : List Char) :
    countKey (update_client_info_cache
        (update_client_info_cache st dn c p a ph inc cn po q su dd)
        dn c p a2 ph2 inc2 cn2 po2 q2 su2 dd2) c p dn = max (countKey st c p dn) 1 ∧
    update_client_info_cache (update_client_info_cache st dn c p a ph inc cn po q su dd)
        dn c p a2 ph2 inc2 cn2 po2 q2 su2 dd2 =
      update_client_info_cache st dn c p a ph inc cn po q su dd := by
  by_cases h : st.asList.any (matchesKey c p dn) = true
  · have hst1 : update_client_info_cache st dn c p a ph inc cn po q su dd = st := by
      simp only [update_client_info_cache, if_pos h]
    have hst2 : update_client_info_cache st dn c p a2 ph2 inc2 cn2 po2 q2 su2 dd2 = st := by
      simp only [update_client_info_cache, if_pos h]
    rw [hst1, hst2]
    have hpos : 0 < countKey st c p dn := by
      rw [countKey, List.countP_pos_iff]
      simpa using List.any_eq_true.mp h
    exact ⟨(Nat.max_eq_left (by omega)).symm, rfl⟩
  · have hst1 : update_client_info_cache st dn c p a ph inc cn po q su dd =
        .jlist (st.asList ++ [mkCacheRecord dn c p a ph inc cn po q su dd]) := by
      simp only [update_client_info_cache, if_neg h]
    have hany2 : ((CacheVal.jlist (st.asList ++
        [mkCacheRecord dn c p a ph inc cn po q su dd])).asList.any
        (matchesKey c p dn)) = true := by
      simp [asList_jlist, List.any_append, matchesKey_mkCacheRecord]
    have hst2 : update_client_info_cache
        (.jlist (st.asList ++ [mkCacheRecord dn c p a ph inc cn po q su dd]))
        dn c p a2 ph2 inc2 cn2 po2 q2 su2 dd2 =
        .jlist (st.asList ++ [mkCacheRecord dn c p a ph inc cn po q su dd]) := by
      simp only [update_client_info_cache, if_pos hany2]
    have hzero : st.asList.countP (matchesKey c p dn) = 0 := by
      rw [List.countP_eq_zero]
      intro r hr hmr
      exact absurd (List.any_eq_true.mpr ⟨r, hr, hmr⟩) h
    constructor
    · rw [hst1, hst2]
      simp only [countKey, asList_jlist, List.countP_append, hzero]
      simp [List.countP_cons, matchesKey_mkCacheRecord, hzero]
    · rw [hst1, hst2]

/-- C3: searching with an empty query returns the full catalog in order;
searching with a non-empty query returns exactly the products whose part
number or description contains the query case-insensitively, in catalog
order (the result is a sublist of the catalog). -/
theorem c3_search (ps : List Product) (q : List Char) :
    (q = [] → on_keyrelease ps q = ps) ∧
    (q ≠ [] →
      (∀ p, p ∈ on_keyrelease ps q ↔ p ∈ ps ∧
        (SubstrOf (strLower q) (strLower p.partNumber) ∨
         SubstrOf (strLower q) (strLower p.description))) ∧
      (on_keyrelease ps q).Sublist ps) := by
  constructor
  · rintro rfl
    rfl
  · intro hq
    have hne : (strLower q).isEmpty = false := by
      cases q with
      | nil => exact absurd rfl hq
      | cons c t => rfl
    constructor
    · intro p
      simp only [on_keyrelease, hne, Bool.false_eq_true, if_false, List.mem_filter,
        Bool.or_eq_true, containsSub_iff]
    · simp only [on_keyrelease, hne, Bool.false_eq_true, if_false]
      exact List.filter_sublist ps

/-- Demo catalog entries used by witnesses. -/
def demoProd1 : Product :=
  ⟨"P001".toList, "Steel Pipe".toList, some ("ACME".toList), some (51 / 2),
    some 3, some (5 / 2)⟩

/-- Second demo catalog entry. -/
def demoProd2 : Product := ⟨"X200".toList, "Bolt".toList, none, none, none, none⟩

/-- C3 witness: a concrete non-empty query instantiates the search
characterization. -/
theorem c3_search_witness :
    ("PIPE".toList ≠ ([] : List Char)) ∧
    (demoProd1 ∈ on_keyrelease [demoProd1, demoProd2] ("PIPE".toList) ↔
      demoProd1 ∈ [demoProd1, demoProd2] ∧
      (SubstrOf (strLower ("PIPE".toList)) (strLower demoProd1.partNumber) ∨
       SubstrOf (strLower ("PIPE".toList)) (strLower demoProd1.description))) :=
  ⟨by decide, ((c3_search [demoProd1, demoProd2] ("PIPE".toList)).2 (by decide)).1 demoProd1⟩

/-- C4: for every paragraph (list of run texts) and nonempty token (template
tokens are `{Name}`-shaped, hence nonempty): after substitution the
concatenation of the run texts equals Python's replacement applied to the
original concatenation — occurrences split across run boundaries included —
and a paragraph whose concatenated text contains no occurrence of the token
is left entirely unchanged. -/
theorem c4_replace_placeholder (runs : List (List Char)) (tok val : List Char) (h : tok ≠ []) :
    catList (replace_placeholder_in_paragraph runs tok val) =
      pyReplace (catList runs) tok val ∧
    (¬ SubstrOf tok (catList runs) → replace_placeholder_in_paragraph runs tok val = runs) := by
  constructor
  · by_cases hg : containsSub tok (catList runs) = true
    · cases runs with
      | nil =>
        exfalso
        have hnil : containsSub tok (catList ([] : List (List Char))) = tok.isEmpty := rfl
        rw [hnil, List.isEmpty_iff] at hg
        exact h hg
      | cons r rest =>
        simp only [replace_placeholder_in_paragraph, if_pos hg]
        show pyReplace (catList (r :: rest)) tok val ++
          catList (rest.map fun _ => ([] : List Char)) = pyReplace (catList (r :: rest)) tok val
        rw [catList_map_nil, List.append_nil]
    · simp only [replace_placeholder_in_paragraph, if_neg hg]
      exact (pyReplace_no_occur h (fun hs => hg ((containsSub_iff _ _).mpr hs))).symm
  · intro hno
    have hg : ¬ containsSub tok (catList runs) = true :=
      fun hgc => hno ((containsSub_iff _ _).mp hgc)
    simp only [replace_placeholder_in_paragraph, if_neg hg]

/-- C4 witness: the token `Name`, split across the runs `"Dear "`, `"Na"`,
`"me!"`, is replaced across the boundary. -/
theorem c4_replace_placeholder_witness :
    ("Name".toList ≠ ([] : List Char)) ∧
    catList (replace_placeholder_in_paragraph
        ["Dear ".toList, "Na".toList, "me!".toList] ("Name".toList) ("Ali".toList)) =
      pyReplace (catList ["Dear ".toList, "Na".toList, "me!".toList]) ("Name".toList)
        ("Ali".toList) ∧
    pyReplace (catList ["Dear ".toList, "Na".toList, "me!".toList]) ("Name".toList)
        ("Ali".toList) = "Dear Ali!".toList :=
  ⟨by decide, (c4_replace_placeholder _ _ _ (by decide)).1, by decide⟩

/-- C5 counterexample: `CurrencyHandler.format` converts before rendering, so
`format(108.5, "USD")` yields `"USD 29.30"` (108.5 × 0.27 rounded half-up),
not `"USD 108.50"` as the claim requires of every `format`. -/
theorem c5_format_counterexample :
    CurrencyHandler.format ("SAR".toList) (217 / 2) (some ("USD".toList)) false none =
      some ("USD 29.30".toList) ∧
    some ("USD 29.30".toList) ≠ some ("USD 108.50".toList) :=
  ⟨by decide, by decide⟩

theorem static_rates_cases {s : List Char} {r : ℚ} (h : static_rates s = some r) :
    (s = "SAR".toList ∧ r = 1) ∨ (s = "USD".toList ∧ r = 27 / 100) := by
  rw [static_rates] at h
  split_ifs at h with h1 h2
  · exact Or.inl ⟨h1, (Option.some_inj.mp h).symm⟩
  · exact Or.inr ⟨h2, (Option.some_inj.mp h).symm⟩

theorem isEmpty_false_of_ne_nil {α : Type} {l : List α} (h : l ≠ []) : l.isEmpty = false := by
  cases l with
  | nil => exact absurd rfl h
  | cons x t => rfl

theorem convert_static (selfCur : List Char) (a : ℚ) {cur : List Char} {r : ℚ}
    (hne : cur ≠ []) (hr : static_rates (strUpper cur) = some r) :
    CurrencyHandler.convert selfCur a (some cur) false none =
      some (quantizeHalfUp2 (a * r)) := by
  have hie := isEmpty_false_of_ne_nil hne
  simp only [CurrencyHandler.convert, hie, Bool.false_eq_true, if_false]
  rw [hr]
  simp

/-- C5 (amended): `utils.format_currency` produces the currency code, a
space, and the amount itself with thousands separators and two decimals
(`format_currency(108.5, "USD") = "USD 108.50"`; stripping the separators
yields exactly the plain 2-decimal rendering); `CurrencyHandler.format`
instead renders the amount converted by the static rate of the (uppercased)
target currency and rounded half-up to two decimals. -/
theorem c5_format_and_currency (v a : ℚ) (c cur : List Char) (r : ℚ)
    (hne : cur ≠ []) (hr : static_rates (strUpper cur) = some r) :
    format_currency (some v) c = c ++ ' ' :: renderThousands2 v ∧
    (renderThousands2 v).filter (fun ch => ch != ',') = renderFix 2 v ∧
    CurrencyHandler.format ("SAR".toList) a (some cur) false none =
      some (strUpper cur ++ ' ' :: renderThousands2 (quantizeHalfUp2 (a * r))) ∧
    format_currency (some (217 / 2)) ("USD".toList) = "USD 108.50".toList := by
  refine ⟨rfl, renderThousands2_filter v, ?_, by decide⟩
  have hie := isEmpty_false_of_ne_nil hne
  have hfmt : CurrencyHandler.format ("SAR".toList) a (some cur) false none =
      (CurrencyHandler.convert ("SAR".toList) a (some (strUpper cur)) false none).map
        (fun w => strUpper cur ++ ' ' :: renderThousands2 w) := by
    simp only [CurrencyHandler.format, hie, Bool.false_eq_true, if_false]
  rcases static_rates_cases hr with ⟨hc, hr1⟩ | ⟨hc, hr1⟩
  · subst hr1
    have hnup : strUpper cur ≠ [] := by rw [hc]; decide
    have hrup : static_rates (strUpper (strUpper cur)) = some 1 := by rw [hc]; decide
    rw [hfmt, convert_static _ a hnup hrup]
    rfl
  · subst hr1
    have hnup : strUpper cur ≠ [] := by rw [hc]; decide
    have hrup : static_rates (strUpper (strUpper cur)) = some (27 / 100) := by
      rw [hc]; decide
    rw [hfmt, convert_static _ a hnup hrup]
    rfl

/-- C5 witness: instantiating the `CurrencyHandler.format` characterization
at 100 SAR → USD. -/
theorem c5_format_and_currency_witness :
    CurrencyHandler.format ("SAR".toList) 100 (some ("USD".toList)) false none =
      some (strUpper ("USD".toList) ++ ' ' ::
        renderThousands2 (quantizeHalfUp2 (100 * (27 / 100)))) :=
  (c5_format_and_currency 0 100 [] ("USD".toList) (27 / 100) (by decide) (by decide)).2.2.1

theorem quantizeHalfUp2_nonneg_eq {x : ℚ} (h : 0 ≤ x) :
    quantizeHalfUp2 x = ((Rat.floor (x * 100 + 1 / 2) : ℤ) : ℚ) / 100 := by
  rw [quantizeHalfUp2, if_pos h]

theorem quantizeHalfUp2_bound {x : ℚ} (h : 0 ≤ x) :
    |quantizeHalfUp2 x - x| ≤ 1 / 200 := by
  rw [quantizeHalfUp2_nonneg_eq h, ratFloor_eq_intFloor]
  have hb1 := Int.floor_le (x * 100 + 1 / 2)
  have hb2 := Int.lt_floor_add_one (x * 100 + 1 / 2)
  have heq : ((⌊x * 100 + 1 / 2⌋ : ℤ) : ℚ) / 100 - x =
      (((⌊x * 100 + 1 / 2⌋ : ℤ) : ℚ) - x * 100) / 100 := by ring
  rw [heq, abs_div, abs_of_pos (by norm_num : (0 : ℚ) < 100)]
  calc |((⌊x * 100 + 1 / 2⌋ : ℤ) : ℚ) - x * 100| / 100 ≤ (1 / 2) / 100 :=
        (div_le_div_iff_of_pos_right (by norm_num)).mpr
          (by rw [abs_le]; constructor <;> linarith)
    _ = 1 / 200 := by norm_num

/-- C6: with no live rate in use, `CurrencyHandler.convert` of a non-negative
amount to a supported currency returns the amount multiplied by that
currency's static rate, rounded half-up to two decimal places
(`⌊amount·rate·100 + 1/2⌋ / 100`, which is within 1/200 of the exact
product). -/
theorem c6_convert (a : ℚ) (cur : List Char) (r : ℚ) (ha : 0 ≤ a) (hne : cur ≠ [])
    (hr : static_rates (strUpper cur) = some r) :
    CurrencyHandler.convert ("SAR".toList) a (some cur) false none =
      some ((Rat.floor (a * r * 100 + 1 / 2) : ℚ) / 100) ∧
    |((Rat.floor (a * r * 100 + 1 / 2) : ℚ) / 100) - a * r| ≤ 1 / 200 := by
  have hr0 : 0 ≤ r := by
    rcases static_rates_cases hr with ⟨-, hr1⟩ | ⟨-, hr1⟩ <;> subst hr1 <;> norm_num
  have hxr : 0 ≤ a * r := mul_nonneg ha hr0
  have hq := quantizeHalfUp2_nonneg_eq hxr
  constructor
  · rw [convert_static _ a hne hr, hq]
  · have hb := quantizeHalfUp2_bound hxr
    rw [hq] at hb
    exact hb

/-- C6 witness: converting 100 (base SAR) to USD at the static rate 0.27
yields exactly 27.00. -/
theorem c6_convert_witness :
    (0 : ℚ) ≤ 100 ∧
    CurrencyHandler.convert ("SAR".toList) 100 (some ("USD".toList)) false none = some 27 := by
  refine ⟨by norm_num, ?_⟩
  have h := (c6_convert 100 ("USD".toList) (27 / 100) (by norm_num) (by decide) (by decide)).1
  rw [h]
  decide

/-- C7: `remove_selected_item` on a one-row ledger deletes the row without
requiring any selection; on a ledger with two or more rows an empty
selection is rejected and the ledger is unchanged; with a non-empty
duplicate-free selection it deletes exactly the rows at the selected
positions, and the surviving rows keep their relative order (the result is a
sublist of the original ledger). -/
theorem c7_remove {α : Type} (rows : List α) (sel : List ℕ) :
    (rows.length = 1 → remove_selected_item rows sel = ([], true)) ∧
    (2 ≤ rows.length → sel = [] → remove_selected_item rows sel = (rows, false)) ∧
    (2 ≤ rows.length → sel ≠ [] → sel.Nodup →
      remove_selected_item rows sel = (keepIdx rows sel, true) ∧
      (keepIdx rows sel).Sublist rows) := by
  refine ⟨?_, ?_, ?_⟩
  · intro h1
    rw [remove_selected_item, if_neg (by omega), if_pos h1]
  · intro h2 hsel
    subst hsel
    rw [remove_selected_item, if_neg (by omega), if_neg (by omega)]
    simp
  · intro h2 hne hnd
    have hie : sel.isEmpty = false := isEmpty_false_of_ne_nil hne
    constructor
    · rw [remove_selected_item, if_neg (by omega), if_neg (by omega),
        if_neg (by simp [hie])]
      congr 1
      rw [foldl_eraseIdx_keepAux _ _ (insertionSort_pairwise_gt hnd)]
      exact keepAux_congr rows _ sel 0 (fun j => (List.perm_insertionSort _ sel).mem_iff)
    · exact keepAux_sublist rows sel 0

/-- C7 witness: a three-row ledger with rows 0 and 2 selected keeps exactly
the middle row. -/
theorem c7_remove_witness :
    remove_selected_item ([10, 20, 30] : List ℕ) [2, 0] =
      (keepIdx ([10, 20, 30] : List ℕ) [2, 0], true) ∧
    keepIdx ([10, 20, 30] : List ℕ) [2, 0] = [20] :=
  ⟨((c7_remove ([10, 20, 30] : List ℕ) [2, 0]).2.2 (by decide) (by decide) (by decide)).1,
    by decide⟩

/-- C8 counterexample: the quantity editor accepts the input `"a1"` (storing
quantity 1) although `"a1"` does not parse as an integer, so acceptance is
not equivalent to the input parsing as a positive integer. -/
theorem c8_edit_counterexample :
    on_double_click ("Qty".toList) ("3 pcs".toList) ("a1".toList) =
      ("1 pcs".toList, true) ∧
    pyIntParse ("a1".toList) = none :=
  ⟨by decide, by decide⟩

/-- C8 (amended): a quantity edit is accepted iff the stripped input contains
at least one digit character and the number formed by its digit characters is
nonzero; a rejected quantity edit keeps the prior value; only the Qty, Unit
Price and Weight columns accept inline edits at all, and price and weight
edits store the stripped input verbatim. -/
theorem c8_edit (col cur inp : List Char) :
    ((on_double_click ("Qty".toList) cur inp).2 = true ↔
      ((stripWs inp).filter Char.isDigit ≠ [] ∧
        digitsToNat ((stripWs inp).filter Char.isDigit) ≠ 0)) ∧
    ((on_double_click ("Qty".toList) cur inp).2 = false →
      (on_double_click ("Qty".toList) cur inp).1 = cur) ∧
    (col ≠ "Qty".toList → col ≠ "Unit Price".toList → col ≠ "Weight".toList →
      on_double_click col cur inp = (cur, false)) ∧
    ((col = "Unit Price".toList ∨ col = "Weight".toList) →
      on_double_click col cur inp = (stripWs inp, true)) := by
  have hqty : on_double_click ("Qty".toList) cur inp =
      (if ((stripWs inp).filter Char.isDigit).isEmpty then (cur, false)
       else if digitsToNat ((stripWs inp).filter Char.isDigit) = 0 then (cur, false)
       else (format_qty (some (digitsToNat ((stripWs inp).filter Char.isDigit) : ℤ)),
         true)) := by
    simp only [on_double_click]
    simp
  refine ⟨?_, ?_, ?_, ?_⟩
  · rw [hqty]
    by_cases h1 : ((stripWs inp).filter Char.isDigit) = []
    · rw [if_pos (by simp [h1])]
      simp [h1]
    · rw [if_neg (by simp [List.isEmpty_iff, h1])]
      by_cases h2 : digitsToNat ((stripWs inp).filter Char.isDigit) = 0
      · rw [if_pos h2]
        simp [h1, h2]
      · rw [if_neg h2]
        simp [h1, h2]
  · rw [hqty]
    by_cases h1 : ((stripWs inp).filter Char.isDigit) = []
    · rw [if_pos (by simp [h1])]
      intro _
      rfl
    · rw [if_neg (by simp [List.isEmpty_iff, h1])]
      by_cases h2 : digitsToNat ((stripWs inp).filter Char.isDigit) = 0
      · rw [if_pos h2]
        intro _
        rfl
      · rw [if_neg h2]
        intro hcontra
        simp at hcontra
  · intro h1 h2 h3
    rw [on_double_click, if_neg ?_]
    rintro (h | h | h)
    · exact h1 h
    · exact h2 h
    · exact h3 h
  · rintro (rfl | rfl)
    · rw [on_double_click, if_pos (Or.inr (Or.inl rfl)), if_neg (by decide)]
    · rw [on_double_click, if_pos (Or.inr (Or.inr rfl)), if_neg (by decide)]

/-- C8 witness: a non-editable column refuses the edit and keeps the cell. -/
theorem c8_edit_witness :
    (("Notes".toList : List Char) ≠ "Qty".toList) ∧
    on_double_click ("Notes".toList) ("x".toList) ("5".toList) = ("x".toList, false) :=
  ⟨by decide, (c8_edit ("Notes".toList) ("x".toList) ("5".toList)).2.2.1
    (by decide) (by decide) (by decide)⟩

/-- C9: adding checked products to the ledger appends one formatted row per
product and leaves the catalog's product list entirely unchanged (same
products, same field values, same order). -/
theorem c9_add_frame (st : GenState) (checked : List Product) (cu : List Char) :
    (add_selected_items cu st checked).products = st.products ∧
    (add_selected_items cu st checked).ledger =
      st.ledger ++ checked.map (format_item_for_tree cu) := by
  induction checked generalizing st with
  | nil => simp [add_selected_items]
  | cons p t ih =>
    have hstep : add_selected_items cu st (p :: t) =
        add_selected_items cu
          { st with ledger := st.ledger ++ [format_item_for_tree cu p],
                    selectedItems := st.selectedItems ++ [p] } t := rfl
    rw [hstep]
    obtain ⟨ih1, ih2⟩ := ih { st with ledger := st.ledger ++ [format_item_for_tree cu p],
                                      selectedItems := st.selectedItems ++ [p] }
    refine ⟨?_, ?_⟩
    · rw [ih1]
    · rw [ih2]
      simp

/-- C10: round trips of the display formatters and parsers — parsing the
quantity display of a positive integer returns it; parsing the price display
of a non-negative amount returns the amount rounded to two decimal places
(a multiple of 1/100 within 1/200 of the amount); parsing the weight display
returns the weight rounded to three decimal places (within 1/2000). -/
theorem c10_round_trip :
    (∀ n : ℤ, 0 < n → parse_qty_from_display (format_qty (some n)) = n) ∧
    (∀ (x : ℚ) (cur : List Char), 0 ≤ x →
      parse_price_from_display (format_price (some x) cur) =
        ((rhe (x * 100) : ℤ) : ℚ) / 100 ∧
      |parse_price_from_display (format_price (some x) cur) - x| ≤ 1 / 200) ∧
    (∀ w : ℚ, 0 ≤ w →
      parse_weight_from_display (format_weight (some w)) =
        ((rhe (w * 1000) : ℤ) : ℚ) / 1000 ∧
      |parse_weight_from_display (format_weight (some w)) - w| ≤ 1 / 2000) := by
  refine ⟨fun n h => parse_format_qty h, fun x cur h => ⟨parse_format_price cur h, ?_⟩,
    fun w h => ⟨parse_format_weight h, ?_⟩⟩
  · rw [parse_format_price cur h]
    have hb := rhe_scaled_bound x 100 (by norm_num)
    calc |((rhe (x * 100) : ℤ) : ℚ) / 100 - x| ≤ 1 / (2 * 100) := hb
      _ = 1 / 200 := by norm_num
  · rw [parse_format_weight h]
    have hb := rhe_scaled_bound w 1000 (by norm_num)
    calc |((rhe (w * 1000) : ℤ) : ℚ) / 1000 - w| ≤ 1 / (2 * 1000) := hb
      _ = 1 / 2000 := by norm_num

/-- C10 witness: parsing the display of quantity 3 returns 3. -/
theorem c10_round_trip_witness :
    (0 : ℤ) < 3 ∧ parse_qty_from_display (format_qty (some 3)) = 3 :=
  ⟨by norm_num, c10_round_trip.1 3 (by norm_num)⟩
